import Mathlib

/-!
Shallow embedding of the core of `linkml_term_validator/plugins/base.py`
(class `BaseOntologyPlugin`): CURIE handling, adapter resolution, the
multi-level label cache, string normalization, and dynamic enum expansion.

Python strings are modelled as Lean `String` (operations are carried out on
the underlying `List Char`); Python `None` as `Option.none`; Python sets of
strings as `Finset String`; Python dicts as association lists (first match
wins, updates prepend).  Exceptions from the ontology backend's
ancestors/descendants calls are modelled by the backend returning `none`.
The `datetime.now()` timestamp written to the CSV cache is not observable
through any read path modelled here and is omitted.
-/

namespace TermValidator

/-- Association-list lookup over string keys, modelling Python dict lookup. -/
def lookupA {β : Type} : List (String × β) → String → Option β
  | [], _ => none
  | (k, v) :: rest, key => if k = key then some v else lookupA rest key

/-- `BaseOntologyPlugin._get_prefix`: the substring before the first colon,
or `none` when the CURIE has no colon. -/
def prefixOf (curie : String) : Option String :=
  if curie.data.contains ':' then
    some (String.mk (curie.data.takeWhile (fun c => c ≠ ':')))
  else
    none

/-- Python `\w` on the ASCII fragment: letters, digits, underscore. -/
def isWordChar (c : Char) : Bool :=
  c.isAlphanum || c = '_'

/-- Python `\s` on the ASCII fragment: space, tab, newline, carriage
return, vertical tab, form feed. -/
def isSpaceChar (c : Char) : Bool :=
  c = ' ' || c = '\t' || c = '\n' || c = '\x0d' || c = '\x0b' || c = '\x0c'

/-- First regex of `normalize_string`: every character that is neither a
word character nor whitespace is replaced by a single space (the Python
pattern replaces each such character individually). -/
def punctToSpace (l : List Char) : List Char :=
  l.map (fun c => if isWordChar c || isSpaceChar c then c else ' ')

/-- Second regex of `normalize_string`: each maximal run of whitespace
characters is replaced by one space.  The boolean records whether the
previous character belonged to a whitespace run. -/
def collapseSpacesAux : Bool → List Char → List Char
  | _, [] => []
  | prevSpace, c :: cs =>
    if isSpaceChar c then
      if prevSpace then collapseSpacesAux true cs
      else ' ' :: collapseSpacesAux true cs
    else c :: collapseSpacesAux false cs

/-- Python `str.strip`: drop leading and trailing whitespace. -/
def stripChars (l : List Char) : List Char :=
  ((l.dropWhile (fun c => isSpaceChar c)).reverse.dropWhile
    (fun c => isSpaceChar c)).reverse

/-- `BaseOntologyPlugin.normalize_string`: lowercase, replace
non-word/non-space characters by spaces, collapse whitespace runs, strip.
`Char.toLower` matches Python `str.lower` on the ASCII fragment. -/
def normalize_string (s : String) : String :=
  String.mk (stripChars (collapseSpacesAux false
    (punctToSpace (s.data.map Char.toLower))))

/-- Modelled from the spec (section 4.5), for comparison with the code:
"replace every run of non-word/non-space characters with a single space".
The boolean records whether the previous character belonged to such a run. -/
def punctRunsToSpaceAux : Bool → List Char → List Char
  | _, [] => []
  | inRun, c :: cs =>
    if isWordChar c || isSpaceChar c then c :: punctRunsToSpaceAux false cs
    else if inRun then punctRunsToSpaceAux true cs
    else ' ' :: punctRunsToSpaceAux true cs

/-- Modelled from the spec (section 4.5): lowercase, replace runs of
non-word/non-space characters with a single space, collapse whitespace
runs to one space, trim. -/
def normalizeSpec (s : String) : String :=
  String.mk (stripChars (collapseSpacesAux false
    (punctRunsToSpaceAux false (s.data.map Char.toLower))))

/-- `BaseOntologyPlugin._is_prefix_configured`: the prefix is present in
the loaded `ontology_adapters` map with a non-empty (truthy) value. -/
def is_prefix_configured (oakConfig : List (String × String)) (p : String) : Bool :=
  match lookupA oakConfig p with
  | some v => v ≠ ""
  | none => false

/-- The pure core of `BaseOntologyPlugin._get_adapter` (lines 182-203,
before memoization): which adapter string, if any, is resolved for a
prefix given the loaded `ontology_adapters` map and the default adapter
string.  `none` models the method returning `None`. -/
def resolveAdapterString (oakConfig : List (String × String))
    (defaultAdapter : String) (p : String) : Option String :=
  match lookupA oakConfig p with
  | some configured =>
      if configured = "" then none else some configured
  | none =>
      if oakConfig ≠ [] then none
      else if defaultAdapter = "sqlite:obo:" then
        some ("sqlite:obo:" ++ String.mk (p.data.map Char.toLower))
      else none

/-- The immutable part of the plugin's configuration relevant to label
lookup: `ValidationConfig.oak_adapter_string`, `ValidationConfig.cache_labels`,
and the `ontology_adapters` map loaded by `_load_oak_config`. -/
structure VConfig where
  oak_adapter_string : String
  cache_labels : Bool
  oak_config : List (String × String)

/-- The ontology backend as seen through `adapter.label`: a resolved adapter
(identified by its adapter string) maps a CURIE to a label or `None`. -/
structure LabelEnv where
  adapterLabel : String → String → Option String

/-- The mutable state of `BaseOntologyPlugin` touched by label lookup:
`_label_cache`, `_adapter_cache` (an adapter object is represented by the
adapter string it was constructed from), `_unknown_prefixes`, and the
on-disk per-prefix CSV caches (prefix, then rows of (curie, label)). -/
structure PState where
  label_cache : List (String × Option String)
  adapter_cache : List (String × Option String)
  unknown_prefixes : List String
  file_cache : List (String × List (String × String))

/-- The empty state a plugin starts from at construction. -/
def initState : PState :=
  { label_cache := [], adapter_cache := [], unknown_prefixes := [], file_cache := [] }

/-- `BaseOntologyPlugin._load_cache`: the rows cached on disk for a prefix
(empty when the file does not exist). -/
def load_cache (st : PState) (p : String) : List (String × String) :=
  (lookupA st.file_cache p).getD []

/-- `BaseOntologyPlugin._save_to_cache`: read-modify-write of one prefix's
CSV file, inserting or updating the row for `curie`. -/
def save_to_cache (st : PState) (p curie label : String) : PState :=
  { st with file_cache := (p, (curie, label) :: load_cache st p) :: st.file_cache }

/-- `BaseOntologyPlugin._get_adapter` with its memoization in
`_adapter_cache`.  Construction of the adapter object from the adapter
string is represented by recording the string itself. -/
def get_adapter (cfg : VConfig) (st : PState) (p : String) :
    Option String × PState :=
  match lookupA st.adapter_cache p with
  | some cached => (cached, st)
  | none =>
      let r := resolveAdapterString cfg.oak_config cfg.oak_adapter_string p
      (r, { st with adapter_cache := (p, r) :: st.adapter_cache })

/-- `BaseOntologyPlugin.get_ontology_label`.  Returns the label (or
`none`), the updated plugin state, and the number of backend
`adapter.label` queries performed by this call (0 or 1).  The guard
`if not prefix: return None` is a truthiness test: it returns early both
when `_get_prefix` gave `None` (no colon) and when it gave the falsy
empty string (a CURIE starting with a colon). -/
def get_ontology_label (cfg : VConfig) (env : LabelEnv) (st : PState)
    (curie : String) : Option String × PState × Nat :=
  match lookupA st.label_cache curie with
  | some v => (v, st, 0)
  | none =>
    match prefixOf curie with
    | none => (none, st, 0)
    | some p =>
      if p = "" then (none, st, 0)
      else
      match lookupA (if cfg.cache_labels then load_cache st p else []) curie with
      | some label =>
          (some label,
           { st with label_cache := (curie, some label) :: st.label_cache }, 0)
      | none =>
        match get_adapter cfg st p with
        | (none, st1) =>
            (none,
             { st1 with
                 label_cache := (curie, none) :: st1.label_cache,
                 unknown_prefixes :=
                   if is_prefix_configured cfg.oak_config p then
                     st1.unknown_prefixes
                   else p :: st1.unknown_prefixes },
             0)
        | (some adapterStr, st1) =>
            match env.adapterLabel adapterStr curie with
            | some l =>
                (some l,
                 if l ≠ "" && cfg.cache_labels then
                   save_to_cache
                     { st1 with label_cache := (curie, some l) :: st1.label_cache }
                     p curie l
                 else
                   { st1 with label_cache := (curie, some l) :: st1.label_cache },
                 1)
            | none =>
                (none,
                 { st1 with label_cache := (curie, none) :: st1.label_cache },
                 1)

/-- The ontology backend as seen through graph traversal: `ancestors` and
`descendants` take a source CURIE, a predicate list and a reflexive flag.
A call that raises is modelled by `none`; a normal return by `some` of the
returned term list. -/
structure Adapter where
  ancestors : String → List String → Bool → Option (List String)
  descendants : String → List String → Bool → Option (List String)

/-- `ReachabilityQuery` from the LinkML model: source nodes, relationship
types (empty list models an unset/falsy value), traversal direction, and
the `include_self` flag; `none` models the attribute being absent
(`hasattr` false in `_expand_reachable_from`). -/
structure ReachabilityQuery where
  source_nodes : List String
  relationship_types : List String
  traverse_up : Bool
  include_self : Option Bool
deriving DecidableEq

/-- `MatchQuery` from the LinkML model; its content is never inspected by
`_expand_matches`, which is a stub. -/
structure MatchQuery where
  identifier_pattern : Option String
deriving DecidableEq

/-- A permissible value: only its optional `meaning` is read by the
expansion code (its name is the key it is stored under). -/
structure PermissibleValue where
  meaning : Option String
deriving DecidableEq

/-- An enum expression as consumed by `_expand_enum_expression` (used for
`include` and `minus` sub-expressions): only `reachable_from`, `matches`,
`concepts` and `permissible_values` are probed. -/
structure EnumExpression where
  reachable_from : Option ReachabilityQuery
  matches_ : Option MatchQuery
  concepts : List String
  permissible_values : List (String × PermissibleValue)
deriving DecidableEq

/-- `EnumDefinition` restricted to the fields read by `expand_enum`.
The source attributes `include` and `matches` are Lean keywords and are
rendered `includes` and `matches_` here. -/
structure EnumDefinition where
  reachable_from : Option ReachabilityQuery
  matches_ : Option MatchQuery
  concepts : List String
  includes : List EnumExpression
  minus : List EnumExpression
  inherits : List String
  permissible_values : List (String × PermissibleValue)
deriving DecidableEq

/-- A schema view, as used through `schema_view.get_enum`: a map from enum
name to definition. -/
def SchemaView : Type := List (String × EnumDefinition)

/-- An enum definition with every optional component absent. -/
def emptyEnum : EnumDefinition :=
  { reachable_from := none, matches_ := none, concepts := [], includes := [],
    minus := [], inherits := [], permissible_values := [] }

/-- An enum expression with every optional component absent. -/
def emptyExpr : EnumExpression :=
  { reachable_from := none, matches_ := none, concepts := [],
    permissible_values := [] }

/-- `BaseOntologyPlugin.is_dynamic_enum`: Python truthiness of
`reachable_from or matches or concepts or include or inherits`. -/
def is_dynamic_enum (e : EnumDefinition) : Bool :=
  e.reachable_from.isSome || e.matches_.isSome || !e.concepts.isEmpty
    || !e.includes.isEmpty || !e.inherits.isEmpty

/-- `BaseOntologyPlugin._expand_matches`: a stub that always yields the
empty set. -/
def expand_matches (_q : MatchQuery) : Finset String := ∅

/-- The body of the per-source loop of `_expand_reachable_from`: the
`adapter.ancestors` or `adapter.descendants` call with the code's default
reflexivity (`False` for ancestors, `True` for descendants) when
`include_self` is absent.  `none` models the call raising. -/
def sourceCall (A : Adapter) (preds : List String) (tu : Bool)
    (isf : Option Bool) (s : String) : Option (List String) :=
  if tu then A.ancestors s preds (isf.getD false)
  else A.descendants s preds (isf.getD true)

/-- What one source node contributes to a reachability expansion: nothing
when the traversal call raises (the `except` branch) or returns a falsy
result, its result set otherwise. -/
def reachOne (A : Adapter) (preds : List String) (tu : Bool)
    (isf : Option Bool) (s : String) : Finset String :=
  match sourceCall A preds tu isf s with
  | none => ∅
  | some r => if r ≠ [] then r.toFinset else ∅

/-- `BaseOntologyPlugin._expand_reachable_from`.  The memoized
`_get_adapter` is abstracted as the pure resolver `resolve` (for a fixed
plugin run it is a function of the prefix).  The guard
`if not prefix: return values` is a truthiness test: it returns the empty
set both when `_get_prefix` gave `None` (no colon in the first source)
and when it gave the falsy empty string (first source starts with a
colon). -/
def expand_reachable_from (resolve : String → Option Adapter)
    (q : ReachabilityQuery) : Finset String :=
  match q.source_nodes with
  | [] => ∅
  | first :: _ =>
    match prefixOf first with
    | none => ∅
    | some p =>
      if p = "" then ∅
      else
      match resolve p with
      | none => ∅
      | some A =>
        let preds :=
          if q.relationship_types ≠ [] then q.relationship_types
          else ["rdfs:subClassOf"]
        q.source_nodes.foldl
          (fun acc s => acc ∪ reachOne A preds q.traverse_up q.include_self s) ∅

/-- The permissible-value loop body shared by `expand_enum` and
`_expand_enum_expression`: add the name, then the meaning when it is
truthy (present and non-empty). -/
def addPV (acc : Finset String) (nm : String) (pv : PermissibleValue) :
    Finset String :=
  let a := insert nm acc
  match pv.meaning with
  | some m => if m ≠ "" then insert m a else a
  | none => a

/-- `BaseOntologyPlugin._expand_enum_expression`. -/
def expand_enum_expression (resolve : String → Option Adapter)
    (ex : EnumExpression) : Finset String :=
  let v0 : Finset String := ∅
  let v1 := match ex.reachable_from with
    | some q => v0 ∪ expand_reachable_from resolve q
    | none => v0
  let v2 := match ex.matches_ with
    | some m => v1 ∪ expand_matches m
    | none => v1
  let v3 := if ex.concepts ≠ [] then v2 ∪ ex.concepts.toFinset else v2
  if ex.permissible_values ≠ [] then
    ex.permissible_values.foldl (fun acc x => addPV acc x.1 x.2) v3
  else v3

/-- `BaseOntologyPlugin.expand_enum`.  The recursion through `inherits`
follows Python's call stack and is bounded by explicit fuel; fuel 0 (never
reached on the non-cyclic schemas Python terminates on) yields the empty
set. -/
def expand_enum (resolve : String → Option Adapter) :
    Nat → Option SchemaView → EnumDefinition → Finset String
  | 0, _, _ => ∅
  | Nat.succ fuel, sv, e =>
    let v0 : Finset String := ∅
    let v1 := match e.reachable_from with
      | some q => v0 ∪ expand_reachable_from resolve q
      | none => v0
    let v2 := match e.matches_ with
      | some m => v1 ∪ expand_matches m
      | none => v1
    let v3 := if e.concepts ≠ [] then v2 ∪ e.concepts.toFinset else v2
    let v4 :=
      if e.includes ≠ [] then
        e.includes.foldl
          (fun acc ex => acc ∪ expand_enum_expression resolve ex) v3
      else v3
    let v5 :=
      if e.minus ≠ [] then
        e.minus.foldl
          (fun acc ex => acc \ expand_enum_expression resolve ex) v4
      else v4
    let v6 :=
      if e.inherits ≠ [] then
        match sv with
        | some svv =>
            e.inherits.foldl
              (fun acc pname =>
                match lookupA svv pname with
                | some parent => acc ∪ expand_enum resolve fuel sv parent
                | none => acc) v5
        | none => v5
      else v5
    if e.permissible_values ≠ [] then
      e.permissible_values.foldl (fun acc x => addPV acc x.1 x.2) v6
    else v6

/-! ### Helper lemmas about the loop shapes used by the embedding -/

lemma lookupA_cons_self {β : Type} (k : String) (v : β) (l : List (String × β)) :
    lookupA ((k, v) :: l) k = some v := by
  simp [lookupA]

/-- Union of the images of a list's elements: the normal form of the
set-accumulating loops in `expand_enum` and `_expand_reachable_from`. -/
def unionFold {α : Type} (g : α → Finset String) (l : List α) : Finset String :=
  l.foldl (fun acc x => acc ∪ g x) ∅

lemma foldl_union_eq {α : Type} (g : α → Finset String) (l : List α) :
    ∀ v : Finset String, l.foldl (fun acc x => acc ∪ g x) v = v ∪ unionFold g l := by
  induction l with
  | nil => intro v; simp [unionFold]
  | cons a t ih =>
      intro v
      have h1 : unionFold g (a :: t) = g a ∪ unionFold g t := by
        show t.foldl _ (∅ ∪ g a) = _
        rw [ih (∅ ∪ g a), Finset.empty_union]
      rw [List.foldl_cons, ih (v ∪ g a), h1, Finset.union_assoc]

lemma unionFold_cons {α : Type} (g : α → Finset String) (a : α) (t : List α) :
    unionFold g (a :: t) = g a ∪ unionFold g t := by
  show t.foldl _ (∅ ∪ g a) = _
  rw [foldl_union_eq g t (∅ ∪ g a), Finset.empty_union]

lemma unionFold_append {α : Type} (g : α → Finset String) (l1 l2 : List α) :
    unionFold g (l1 ++ l2) = unionFold g l1 ∪ unionFold g l2 := by
  induction l1 with
  | nil => simp [unionFold]
  | cons a t ih =>
      rw [List.cons_append, unionFold_cons, unionFold_cons, ih, Finset.union_assoc]

lemma mem_unionFold {α : Type} (g : α → Finset String) (l : List α) (x : String) :
    x ∈ unionFold g l ↔ ∃ a ∈ l, x ∈ g a := by
  induction l with
  | nil => simp [unionFold]
  | cons a t ih => rw [unionFold_cons]; simp [ih]

lemma sdiff_sdiff_union (s a b : Finset String) : (s \ a) \ b = s \ (a ∪ b) := by
  ext x
  simp only [Finset.mem_sdiff, Finset.mem_union]
  tauto

lemma foldl_sdiff_eq {α : Type} (g : α → Finset String) (l : List α) :
    ∀ v : Finset String, l.foldl (fun acc x => acc \ g x) v = v \ unionFold g l := by
  induction l with
  | nil => intro v; simp [unionFold]
  | cons a t ih =>
      intro v
      rw [List.foldl_cons, ih (v \ g a), unionFold_cons, sdiff_sdiff_union]

lemma foldl_congr2 {α β : Type} (f1 f2 : β → α → β) (l : List α)
    (h : ∀ acc x, f1 acc x = f2 acc x) :
    ∀ v : β, l.foldl f1 v = l.foldl f2 v := by
  induction l with
  | nil => intro v; rfl
  | cons a t ih => intro v; rw [List.foldl_cons, List.foldl_cons, h, ih]

lemma addPV_eq_union (acc : Finset String) (nm : String) (pv : PermissibleValue) :
    addPV acc nm pv = acc ∪ addPV ∅ nm pv := by
  simp only [addPV]
  cases pv.meaning with
  | none => ext x; simp; tauto
  | some m =>
      by_cases hm : m = ""
      · simp only [hm, ne_eq, not_true_eq_false, if_false]
        ext x; simp; tauto
      · simp only [ne_eq, hm, not_false_eq_true, if_true]
        ext x; simp; tauto

/-! ### The algebraic decomposition of `expand_enum` -/

/-- What the `reachable_from` branch of `expand_enum` contributes. -/
def rfSet (resolve : String → Option Adapter) (e : EnumDefinition) : Finset String :=
  match e.reachable_from with
  | some q => expand_reachable_from resolve q
  | none => ∅

/-- What the `matches` branch of `expand_enum` contributes (always empty,
since `_expand_matches` is a stub). -/
def matchesSet (e : EnumDefinition) : Finset String :=
  match e.matches_ with
  | some m => expand_matches m
  | none => ∅

/-- What the `concepts` branch of `expand_enum` contributes. -/
def conceptsSet (e : EnumDefinition) : Finset String := e.concepts.toFinset

/-- What the `include` loop of `expand_enum` contributes. -/
def includeUnion (resolve : String → Option Adapter) (e : EnumDefinition) :
    Finset String :=
  unionFold (expand_enum_expression resolve) e.includes

/-- The set accumulated by `expand_enum` before the `minus` loop runs:
reachability, matches, concepts and include results. -/
def baseUnion (resolve : String → Option Adapter) (e : EnumDefinition) :
    Finset String :=
  rfSet resolve e ∪ matchesSet e ∪ conceptsSet e ∪ includeUnion resolve e

/-- The union of the expansions of all `minus` sub-expressions. -/
def minusUnion (resolve : String → Option Adapter) (e : EnumDefinition) :
    Finset String :=
  unionFold (expand_enum_expression resolve) e.minus

/-- What one inherited parent name contributes at a given fuel level. -/
def inheritOne (resolve : String → Option Adapter) (fuel : Nat)
    (sv : Option SchemaView) (svv : SchemaView) (pname : String) : Finset String :=
  match lookupA svv pname with
  | some parent => expand_enum resolve fuel sv parent
  | none => ∅

/-- What the `inherits` loop of `expand_enum` contributes. -/
def inheritUnion (resolve : String → Option Adapter) (fuel : Nat)
    (sv : Option SchemaView) (e : EnumDefinition) : Finset String :=
  match sv with
  | none => ∅
  | some svv => unionFold (inheritOne resolve fuel sv svv) e.inherits

/-- What one permissible-value entry contributes: its name and, when
truthy, its meaning. -/
def pvOne (x : String × PermissibleValue) : Finset String := addPV ∅ x.1 x.2

/-- What the permissible-value loop of `expand_enum` contributes. -/
def pvUnion (e : EnumDefinition) : Finset String :=
  unionFold pvOne e.permissible_values

lemma step_concepts (e : EnumDefinition) (v : Finset String) :
    (if e.concepts ≠ [] then v ∪ e.concepts.toFinset else v) = v ∪ conceptsSet e := by
  unfold conceptsSet
  split
  · rfl
  · simp_all

lemma step_includes (resolve : String → Option Adapter) (e : EnumDefinition)
    (v : Finset String) :
    (if e.includes ≠ [] then
        e.includes.foldl (fun acc ex => acc ∪ expand_enum_expression resolve ex) v
      else v)
      = v ∪ includeUnion resolve e := by
  unfold includeUnion
  split
  · rw [foldl_union_eq]
  · simp_all [unionFold]

lemma step_minus (resolve : String → Option Adapter) (e : EnumDefinition)
    (v : Finset String) :
    (if e.minus ≠ [] then
        e.minus.foldl (fun acc ex => acc \ expand_enum_expression resolve ex) v
      else v)
      = v \ minusUnion resolve e := by
  unfold minusUnion
  split
  · rw [foldl_sdiff_eq]
  · simp_all [unionFold]

lemma step_inherits (resolve : String → Option Adapter) (fuel : Nat)
    (sv : Option SchemaView) (e : EnumDefinition) (v : Finset String) :
    (if e.inherits ≠ [] then
        match sv with
        | some svv =>
            e.inherits.foldl
              (fun acc pname =>
                match lookupA svv pname with
                | some parent => acc ∪ expand_enum resolve fuel sv parent
                | none => acc) v
        | none => v
      else v)
      = v ∪ inheritUnion resolve fuel sv e := by
  unfold inheritUnion
  split
  · cases sv with
    | none => simp
    | some svv =>
        have hc : ∀ (acc : Finset String) (pname : String),
            (match lookupA svv pname with
             | some parent => acc ∪ expand_enum resolve fuel (some svv) parent
             | none => acc)
              = acc ∪ inheritOne resolve fuel (some svv) svv pname := by
          intro acc pname
          unfold inheritOne
          cases lookupA svv pname <;> simp
        show e.inherits.foldl
            (fun acc pname =>
              match lookupA svv pname with
              | some parent => acc ∪ expand_enum resolve fuel (some svv) parent
              | none => acc) v
          = v ∪ unionFold (inheritOne resolve fuel (some svv) svv) e.inherits
        rw [foldl_congr2 _ _ _ hc, foldl_union_eq]
  · cases sv <;> simp_all [unionFold]

lemma step_pvs (e : EnumDefinition) (v : Finset String) :
    (if e.permissible_values ≠ [] then
        e.permissible_values.foldl (fun acc x => addPV acc x.1 x.2) v
      else v)
      = v ∪ pvUnion e := by
  unfold pvUnion
  split
  · have hc : ∀ (acc : Finset String) (x : String × PermissibleValue),
        addPV acc x.1 x.2 = acc ∪ pvOne x := by
      intro acc x
      exact addPV_eq_union acc x.1 x.2
    rw [foldl_congr2 _ _ _ hc, foldl_union_eq]
  · simp_all [unionFold]

/-- The loop order of `expand_enum` in algebraic form: subtraction of the
`minus` sets happens after the reachability/matches/concepts/include
unions but before the `inherits` and permissible-value unions. -/
lemma expand_enum_succ_eq (resolve : String → Option Adapter) (fuel : Nat)
    (sv : Option SchemaView) (e : EnumDefinition) :
    expand_enum resolve (fuel + 1) sv e
      = ((baseUnion resolve e \ minusUnion resolve e)
          ∪ inheritUnion resolve fuel sv e) ∪ pvUnion e := by
  simp only [expand_enum]
  rw [step_pvs, step_inherits, step_minus, step_includes, step_concepts]
  have hm : ∀ v : Finset String, (match e.matches_ with
      | some m => v ∪ expand_matches m
      | none => v) = v ∪ matchesSet e := by
    intro v; unfold matchesSet; cases e.matches_ <;> simp [expand_matches]
  rw [hm]
  have hrf : (match e.reachable_from with
      | some q => (∅ : Finset String) ∪ expand_reachable_from resolve q
      | none => (∅ : Finset String)) = rfSet resolve e := by
    unfold rfSet; cases e.reachable_from <;> simp
  rw [hrf]
  unfold baseUnion
  rfl

/-! ### Equivalence of per-character and per-run punctuation replacement -/

lemma collapse_punct_runs :
    ∀ l : List Char,
      (∀ r : Bool,
        collapseSpacesAux true (punctToSpace l)
          = collapseSpacesAux true (punctRunsToSpaceAux r l)) ∧
      collapseSpacesAux false (punctToSpace l)
        = collapseSpacesAux false (punctRunsToSpaceAux false l) := by
  intro l
  induction l with
  | nil => exact ⟨fun _ => rfl, rfl⟩
  | cons c cs ih =>
      by_cases hs : isSpaceChar c = true
      · have hk : (isWordChar c || isSpaceChar c) = true := by rw [hs, Bool.or_true]
        have h1 : punctToSpace (c :: cs) = c :: punctToSpace cs := by
          simp only [punctToSpace, List.map_cons, hk, if_true]
        have h2 : ∀ r : Bool,
            punctRunsToSpaceAux r (c :: cs) = c :: punctRunsToSpaceAux false cs := by
          intro r; simp only [punctRunsToSpaceAux, hk, if_true]
        constructor
        · intro r
          rw [h1, h2 r]
          simp only [collapseSpacesAux, hs, if_true]
          exact ih.1 false
        · rw [h1, h2 false]
          simp only [collapseSpacesAux, hs]
          rw [ih.1 false]
          simp
      · by_cases hw : isWordChar c = true
        · have hk : (isWordChar c || isSpaceChar c) = true := by rw [hw, Bool.true_or]
          have h1 : punctToSpace (c :: cs) = c :: punctToSpace cs := by
            simp only [punctToSpace, List.map_cons, hk, if_true]
          have h2 : ∀ r : Bool,
              punctRunsToSpaceAux r (c :: cs) = c :: punctRunsToSpaceAux false cs := by
            intro r; simp only [punctRunsToSpaceAux, hk, if_true]
          constructor
          · intro r
            rw [h1, h2 r]
            simp only [collapseSpacesAux, hs]
            rw [ih.2]
            simp
          · rw [h1, h2 false]
            simp only [collapseSpacesAux, hs]
            rw [ih.2]
            simp
        · have hk : (isWordChar c || isSpaceChar c) = false := by
            rw [Bool.or_eq_false_iff]
            exact ⟨Bool.eq_false_iff.mpr hw, Bool.eq_false_iff.mpr hs⟩
          have h1 : punctToSpace (c :: cs) = ' ' :: punctToSpace cs := by
            simp only [punctToSpace, List.map_cons, hk, Bool.false_eq_true, if_false]
          have h2t : punctRunsToSpaceAux true (c :: cs) = punctRunsToSpaceAux true cs := by
            simp only [punctRunsToSpaceAux, hk, Bool.false_eq_true, if_false, if_true]
          have h2f : punctRunsToSpaceAux false (c :: cs)
              = ' ' :: punctRunsToSpaceAux true cs := by
            simp only [punctRunsToSpaceAux, hk, Bool.false_eq_true, if_false]
          have hsp : isSpaceChar ' ' = true := by decide
          constructor
          · intro r
            cases r with
            | true =>
                rw [h1, h2t]
                simp only [collapseSpacesAux, hsp, if_true]
                exact ih.1 true
            | false =>
                rw [h1, h2f]
                simp only [collapseSpacesAux, hsp, if_true]
                exact ih.1 true
          · rw [h1, h2f]
            simp only [collapseSpacesAux, hsp]
            rw [ih.1 true]
            simp

lemma normalize_eq_spec_form (s : String) : normalize_string s = normalizeSpec s := by
  unfold normalize_string normalizeSpec
  rw [(collapse_punct_runs (s.data.map Char.toLower)).2]

/-! ### Concrete fixtures used by witnesses and counterexamples -/

/-- A resolver with no available adapters. -/
def noAdapters : String → Option Adapter := fun _ => none

/-- The static enum of the `expand_enum` docstring example. -/
def staticAB : EnumDefinition :=
  { emptyEnum with permissible_values :=
      [("A", ⟨some "TEST:001"⟩), ("B", ⟨some "TEST:002"⟩)] }

/-- An enum whose only query component is `minus` (plus static values). -/
def minusOnlyEnum : EnumDefinition :=
  { emptyEnum with
      minus := [emptyExpr],
      permissible_values := [("A", ⟨none⟩)] }

/-- A `minus` sub-expression naming two identifiers. -/
def exprT12 : EnumExpression :=
  { emptyExpr with concepts := ["TEST:001", "TEST:002"] }

/-- A parent enum contributing the identifier TEST:0002. -/
def parentP : EnumDefinition := { emptyEnum with concepts := ["TEST:002"] }

/-- A schema view holding only `parentP` under the name P. -/
def svP : SchemaView := [("P", parentP)]

/-- An enum whose `minus` clause names identifiers that are re-contributed
by an inherited parent (TEST:002) and by a permissible-value meaning
(TEST:001). -/
def eMinusRe : EnumDefinition :=
  { emptyEnum with
      minus := [exprT12],
      inherits := ["P"],
      permissible_values := [("A", ⟨some "TEST:001"⟩)] }

/-- An adapter over prefix T for reachability tests. -/
def testAdapter : Adapter :=
  { ancestors := fun s _ r => some (if r then [s, "T:anc"] else ["T:anc"]),
    descendants := fun s _ r =>
      if s = "T:bad" then none
      else some (if r then [s, "T:desc"] else ["T:desc"]) }

/-- A resolver exposing `testAdapter` for the prefix T only. -/
def testResolve : String → Option Adapter :=
  fun p => if p = "T" then some testAdapter else none

/-- A downward reachability query with no explicit `include_self`. -/
def qDown : ReachabilityQuery :=
  { source_nodes := ["T:1"], relationship_types := [],
    traverse_up := false, include_self := none }

/-- An upward reachability query with no explicit `include_self`. -/
def qUp : ReachabilityQuery :=
  { source_nodes := ["T:1"], relationship_types := [],
    traverse_up := true, include_self := none }

/-- Configuration with the prefix XX explicitly mapped to an empty adapter
string. -/
def cfgXX : VConfig :=
  { oak_adapter_string := "sqlite:obo:", cache_labels := false,
    oak_config := [("XX", "")] }

/-- Default configuration: no oak_config file, caching enabled. -/
def cfgDefault : VConfig :=
  { oak_adapter_string := "sqlite:obo:", cache_labels := true, oak_config := [] }

/-- A backend whose label query always comes back empty. -/
def envNone : LabelEnv := ⟨fun _ _ => none⟩

/-! ### Claim theorems -/

/-- C9: `normalize_string` is a deterministic pure function that
lowercases its input, replaces runs of non-word/non-space characters with
a single space, collapses whitespace runs to one space and trims
leading/trailing space (it agrees everywhere with the run-based
specification `normalizeSpec`); in particular it maps "Hello, World!" to
"hello world" and "T-Cell Receptor" to "t cell receptor". -/
theorem C9_normalize_contract :
    (∀ s : String, normalize_string s = normalizeSpec s)
    ∧ normalize_string "Hello, World!" = "hello world"
    ∧ normalize_string "T-Cell Receptor" = "t cell receptor" :=
  ⟨normalize_eq_spec_form, by decide, by decide⟩

/-- C10: `is_dynamic_enum` is true exactly when at least one of
`reachable_from`, `matches`, `concepts`, `include` or `inherits` is
present and non-empty; an enum whose only query component is `minus`
(with static permissible values) is classified as not dynamic. -/
theorem C10_is_dynamic_enum_iff :
    (∀ e : EnumDefinition,
      is_dynamic_enum e = true
        ↔ (e.reachable_from ≠ none ∨ e.matches_ ≠ none ∨ e.concepts ≠ []
            ∨ e.includes ≠ [] ∨ e.inherits ≠ []))
    ∧ is_dynamic_enum minusOnlyEnum = false := by
  constructor
  · intro e
    simp only [is_dynamic_enum, Bool.or_eq_true, Option.isSome_iff_ne_none,
      Bool.not_eq_true', List.isEmpty_eq_false, ne_eq]
    tauto
  · decide

/-- C5: adapter resolution is first-match-wins: a configured non-empty
value is used; a configured empty value gives absent; a loaded (non-empty)
configuration without the prefix gives absent with no fallback; with no
configuration, the default "sqlite:obo:" yields "sqlite:obo:" followed by
the lowercased prefix; any other default gives absent. -/
theorem C5_adapter_resolution_order :
    ∀ (oakConfig : List (String × String)) (d p : String),
      (∀ v, lookupA oakConfig p = some v → v ≠ "" →
        resolveAdapterString oakConfig d p = some v)
      ∧ (lookupA oakConfig p = some "" →
        resolveAdapterString oakConfig d p = none)
      ∧ (lookupA oakConfig p = none → oakConfig ≠ [] →
        resolveAdapterString oakConfig d p = none)
      ∧ (lookupA oakConfig p = none → oakConfig = [] → d = "sqlite:obo:" →
        resolveAdapterString oakConfig d p
          = some ("sqlite:obo:" ++ String.mk (p.data.map Char.toLower)))
      ∧ (lookupA oakConfig p = none → oakConfig = [] → d ≠ "sqlite:obo:" →
        resolveAdapterString oakConfig d p = none) := by
  intro oakConfig d p
  refine ⟨?_, ?_, ?_, ?_, ?_⟩
  · intro v h hv; simp [resolveAdapterString, h, hv]
  · intro h; simp [resolveAdapterString, h]
  · intro h hne; simp [resolveAdapterString, h, hne]
  · intro h he hd; simp [resolveAdapterString, lookupA, h, he, hd]
  · intro h he hd; simp [resolveAdapterString, lookupA, h, he, hd]

/-- Witness for C5 at concrete inputs exercising all five branches. -/
theorem C5_adapter_resolution_order_witness :
    resolveAdapterString [("GO", "sqlite:obo:go")] "sqlite:obo:" "GO"
        = some "sqlite:obo:go"
    ∧ resolveAdapterString [("XX", "")] "sqlite:obo:" "XX" = none
    ∧ resolveAdapterString [("GO", "sqlite:obo:go")] "sqlite:obo:" "NOTCONF" = none
    ∧ resolveAdapterString [] "sqlite:obo:" "GO"
        = some ("sqlite:obo:" ++ String.mk ("GO".data.map Char.toLower))
    ∧ resolveAdapterString [] "other" "GO" = none := by
  refine ⟨?_, ?_, ?_, ?_, ?_⟩
  · exact (C5_adapter_resolution_order _ _ _).1 _ (by decide) (by decide)
  · exact (C5_adapter_resolution_order _ _ _).2.1 (by decide)
  · exact (C5_adapter_resolution_order _ _ _).2.2.1 (by decide) (by decide)
  · exact (C5_adapter_resolution_order _ _ _).2.2.2.1 (by decide) rfl rfl
  · exact (C5_adapter_resolution_order _ _ _).2.2.2.2 (by decide) rfl (by decide)

/-- C3: a reachability query with no explicit `include_self` behaves like
one with `include_self = true` when traversing down (descendants queried
reflexively) and like one with `include_self = false` when traversing up
(ancestors queried non-reflexively). -/
theorem C3_include_self_defaults :
    ∀ (resolve : String → Option Adapter) (q : ReachabilityQuery),
      q.include_self = none →
      (q.traverse_up = false →
        expand_reachable_from resolve q
          = expand_reachable_from resolve { q with include_self := some true })
      ∧ (q.traverse_up = true →
        expand_reachable_from resolve q
          = expand_reachable_from resolve { q with include_self := some false }) := by
  intro resolve q h
  constructor
  · intro ht
    simp [expand_reachable_from, reachOne, sourceCall, h, ht]
  · intro ht
    simp [expand_reachable_from, reachOne, sourceCall, h, ht]

/-- Witness for C3 on concrete down- and up-queries over `testAdapter`. -/
theorem C3_include_self_defaults_witness :
    expand_reachable_from testResolve qDown
        = expand_reachable_from testResolve { qDown with include_self := some true }
    ∧ expand_reachable_from testResolve qUp
        = expand_reachable_from testResolve { qUp with include_self := some false } :=
  ⟨(C3_include_self_defaults testResolve qDown rfl).1 rfl,
   (C3_include_self_defaults testResolve qUp rfl).2 rfl⟩

lemma mem_addPV_name (acc : Finset String) (nm : String) (pv : PermissibleValue) :
    nm ∈ addPV acc nm pv := by
  simp only [addPV]
  cases pv.meaning with
  | none => exact Finset.mem_insert_self nm acc
  | some m =>
      by_cases hm : m = ""
      · simp [hm]
      · simp only [ne_eq, hm, not_false_eq_true, if_true]
        exact Finset.mem_insert_of_mem (Finset.mem_insert_self nm acc)

lemma mem_addPV_meaning (acc : Finset String) (nm m : String)
    (pv : PermissibleValue) (h : pv.meaning = some m) (hm : m ≠ "") :
    m ∈ addPV acc nm pv := by
  simp only [addPV, h, ne_eq, hm, not_false_eq_true, if_true]
  exact Finset.mem_insert_self m _

/-- C1 counterexample: the enum `eMinusRe` subtracts the sub-expression
`exprT12` (which expands to TEST:001 and TEST:002), yet both identifiers
appear in the final expansion — TEST:001 re-added by a permissible-value
meaning and TEST:002 by an inherited parent — contradicting the claim
that no identifier of a minus sub-expression is in the returned set. -/
theorem C1_minus_counterexample :
    expand_enum_expression noAdapters exprT12
        = ({"TEST:001", "TEST:002"} : Finset String)
    ∧ "TEST:001" ∈ expand_enum noAdapters 2 (some svP) eMinusRe
    ∧ "TEST:002" ∈ expand_enum noAdapters 2 (some svP) eMinusRe := by
  refine ⟨by decide, by decide, by decide⟩

/-- C1 (amended): `expand_enum` applies the `minus` subtraction after the
unions of `reachable_from`, `matches`, `concepts` and `include`, but
before the `inherits` and permissible-value unions, so an identifier of a
minus sub-expression is in the result exactly when it is re-added by an
inherited parent enum or a static permissible value. -/
theorem C1_minus_before_inherits_and_pvs :
    ∀ (resolve : String → Option Adapter) (fuel : Nat)
      (sv : Option SchemaView) (e : EnumDefinition),
      expand_enum resolve (fuel + 1) sv e
        = ((baseUnion resolve e \ minusUnion resolve e)
            ∪ inheritUnion resolve fuel sv e) ∪ pvUnion e
      ∧ ∀ x, x ∈ minusUnion resolve e →
          (x ∈ expand_enum resolve (fuel + 1) sv e
            ↔ x ∈ inheritUnion resolve fuel sv e ∪ pvUnion e) := by
  intro resolve fuel sv e
  refine ⟨expand_enum_succ_eq resolve fuel sv e, ?_⟩
  intro x hx
  rw [expand_enum_succ_eq resolve fuel sv e]
  simp only [Finset.mem_union, Finset.mem_sdiff]
  constructor
  · rintro ((⟨-, hnot⟩ | h) | h)
    · exact absurd hx hnot
    · exact Or.inl h
    · exact Or.inr h
  · rintro (h | h)
    · exact Or.inl (Or.inr h)
    · exact Or.inr h

/-- Witness for C1's amended theorem: TEST:002 is subtracted yet present
in the concrete expansion exactly because the inherited parent re-adds
it. -/
theorem C1_minus_before_inherits_and_pvs_witness :
    "TEST:002" ∈ expand_enum noAdapters 2 (some svP) eMinusRe
      ↔ "TEST:002" ∈ inheritUnion noAdapters 1 (some svP) eMinusRe
          ∪ pvUnion eMinusRe :=
  (C1_minus_before_inherits_and_pvs noAdapters 1 (some svP) eMinusRe).2
    "TEST:002" (by decide)

/-- C8: `expand_enum` always unions in the name of every static
permissible value and its meaning when one is present (non-empty); in
particular the two-value static enum of the docstring expands to exactly
the names and meanings. -/
theorem C8_static_pvs_always_included :
    (∀ (resolve : String → Option Adapter) (fuel : Nat)
        (sv : Option SchemaView) (e : EnumDefinition)
        (nm : String) (pv : PermissibleValue),
      (nm, pv) ∈ e.permissible_values →
        nm ∈ expand_enum resolve (fuel + 1) sv e
        ∧ ∀ m, pv.meaning = some m → m ≠ "" →
            m ∈ expand_enum resolve (fuel + 1) sv e)
    ∧ expand_enum noAdapters 1 none staticAB
        = ({"A", "B", "TEST:001", "TEST:002"} : Finset String) := by
  constructor
  · intro resolve fuel sv e nm pv hmem
    have hpv : ∀ y, y ∈ pvOne (nm, pv) → y ∈ expand_enum resolve (fuel + 1) sv e := by
      intro y hy
      rw [expand_enum_succ_eq resolve fuel sv e]
      refine Finset.mem_union_right _ ?_
      exact (mem_unionFold pvOne e.permissible_values y).mpr ⟨(nm, pv), hmem, hy⟩
    constructor
    · exact hpv nm (mem_addPV_name ∅ nm pv)
    · intro m hmg hne
      exact hpv m (mem_addPV_meaning ∅ nm m pv hmg hne)
  · decide

/-- Witness for C8 on the concrete static enum. -/
theorem C8_static_pvs_always_included_witness :
    "A" ∈ expand_enum noAdapters 1 none staticAB
    ∧ "TEST:001" ∈ expand_enum noAdapters 1 none staticAB := by
  have h := C8_static_pvs_always_included.1 noAdapters 0 none staticAB
    "A" ⟨some "TEST:001"⟩ (by decide)
  exact ⟨h.1, h.2 "TEST:001" rfl (by decide)⟩

/-- The predicate list actually used by `_expand_reachable_from`:
`relationship_types` when truthy, else the subclass default. -/
def predsOf (q : ReachabilityQuery) : List String :=
  if q.relationship_types ≠ [] then q.relationship_types else ["rdfs:subClassOf"]

lemma expand_reachable_from_adapter (resolve : String → Option Adapter)
    (q : ReachabilityQuery) (first : String) (rest : List String) (p : String)
    (A : Adapter) (hq : q.source_nodes = first :: rest)
    (hp : prefixOf first = some p) (hpne : p ≠ "") (hres : resolve p = some A) :
    expand_reachable_from resolve q
      = unionFold (reachOne A (predsOf q) q.traverse_up q.include_self)
          q.source_nodes := by
  unfold expand_reachable_from predsOf
  rw [hq]
  simp only [hp]
  rw [if_neg hpne]
  simp only [hres]
  rw [← hq]
  rfl

/-- C6: reachability expansion never propagates a graph-traversal
failure: no sources gives the empty set; a falsy (empty) prefix on the
first source gives the empty set; an unresolvable prefix for the first
source gives the empty set; otherwise the result is the union of
per-source contributions in which a throwing ancestors/descendants call
contributes nothing; and dropping a throwing non-first source leaves the
expansion unchanged. -/
theorem C6_reachability_error_handling :
    ∀ (resolve : String → Option Adapter) (q : ReachabilityQuery),
      (q.source_nodes = [] → expand_reachable_from resolve q = ∅)
      ∧ (∀ first rest, q.source_nodes = first :: rest →
          prefixOf first = some "" →
          expand_reachable_from resolve q = ∅)
      ∧ (∀ first rest p, q.source_nodes = first :: rest →
          prefixOf first = some p → resolve p = none →
          expand_reachable_from resolve q = ∅)
      ∧ (∀ first rest p A, q.source_nodes = first :: rest →
          prefixOf first = some p → p ≠ "" → resolve p = some A →
          expand_reachable_from resolve q
            = unionFold (reachOne A (predsOf q) q.traverse_up q.include_self)
                q.source_nodes)
      ∧ (∀ first pre s post p A,
          q.source_nodes = first :: (pre ++ s :: post) →
          prefixOf first = some p → p ≠ "" → resolve p = some A →
          sourceCall A (predsOf q) q.traverse_up q.include_self s = none →
          expand_reachable_from resolve q
            = expand_reachable_from resolve
                { q with source_nodes := first :: (pre ++ post) }) := by
  intro resolve q
  refine ⟨?_, ?_, ?_, ?_, ?_⟩
  · intro h; unfold expand_reachable_from; rw [h]
  · intro first rest hq hp
    unfold expand_reachable_from
    rw [hq]; simp [hp]
  · intro first rest p hq hp hres
    unfold expand_reachable_from
    rw [hq]; simp only [hp, hres]
    split <;> rfl
  · intro first rest p A hq hp hpne hres
    exact expand_reachable_from_adapter resolve q first rest p A hq hp hpne hres
  · intro first pre s post p A hq hp hpne hres hthrow
    have hzero : reachOne A (predsOf q) q.traverse_up q.include_self s = ∅ := by
      unfold reachOne; rw [hthrow]
    have hq' : ({ q with source_nodes := first :: (pre ++ post) }
        : ReachabilityQuery).source_nodes = first :: (pre ++ post) := rfl
    have hpreds : predsOf { q with source_nodes := first :: (pre ++ post) }
        = predsOf q := rfl
    rw [expand_reachable_from_adapter resolve q first (pre ++ s :: post) p A hq
        hp hpne hres,
      expand_reachable_from_adapter resolve
        { q with source_nodes := first :: (pre ++ post) } first (pre ++ post)
        p A hq' hp hpne hres,
      hpreds, hq, hq']
    rw [unionFold_cons, unionFold_cons, unionFold_append, unionFold_append,
      unionFold_cons, hzero, Finset.empty_union]

/-- Witness for C6: with a backend that throws on T:2, dropping T:2 from
the sources leaves the expansion unchanged (and a sourceless query is
empty). -/
theorem C6_reachability_error_handling_witness :
    expand_reachable_from testResolve
        { qDown with source_nodes := ["T:1", "T:bad", "T:3"] }
      = expand_reachable_from testResolve
          { qDown with source_nodes := ["T:1", "T:3"] }
    ∧ expand_reachable_from testResolve { qDown with source_nodes := [] } = ∅ := by
  constructor
  · exact (C6_reachability_error_handling testResolve
      { qDown with source_nodes := ["T:1", "T:bad", "T:3"] }).2.2.2.2
      "T:1" [] "T:bad" ["T:3"] "T" testAdapter rfl (by decide) (by decide) rfl
      (by decide)
  · exact (C6_reachability_error_handling testResolve
      { qDown with source_nodes := [] }).1 rfl

/-- C7: a label lookup for an identifier with no colon (not previously in
the in-memory cache, which only ever holds colon identifiers) returns
absent, performs no backend query, and leaves the entire plugin state —
every cache tier and the unknown-prefix set — unchanged. -/
theorem C7_no_colon_lookup_is_inert :
    ∀ (cfg : VConfig) (env : LabelEnv) (st : PState) (curie : String),
      curie.data.contains ':' = false →
      lookupA st.label_cache curie = none →
      get_ontology_label cfg env st curie = (none, st, 0) := by
  intro cfg env st curie h hl
  have hp : prefixOf curie = none := by
    unfold prefixOf
    rw [h]
    simp
  unfold get_ontology_label
  rw [hl, hp]

/-- Witness for C7 on a colon-free identifier and the initial state. -/
theorem C7_no_colon_lookup_is_inert_witness :
    get_ontology_label cfgDefault envNone initState "invalid"
      = (none, initState, 0) :=
  C7_no_colon_lookup_is_inert cfgDefault envNone initState "invalid"
    (by decide) rfl

/-- C2 counterexample: with the prefix XX explicitly configured with an
empty adapter string, looking up XX:1 returns absent as claimed, but XX
IS recorded in the unknown-prefix set — `_is_prefix_configured` treats an
empty value as not configured — refuting the claim that it is not. -/
theorem C2_empty_configured_counterexample :
    (get_ontology_label cfgXX envNone initState "XX:1").1 = none
    ∧ "XX" ∈ (get_ontology_label cfgXX envNone initState "XX:1").2.1.unknown_prefixes := by
  refine ⟨by decide, by decide⟩

/-- C2 (amended): for an identifier whose non-empty prefix is configured
with an empty adapter string (fresh in all cache tiers), label lookup
returns absent and the prefix IS added to the unknown-prefix set, because
`_is_prefix_configured` requires a non-empty configured value.  (A falsy
empty prefix never reaches this point: `if not prefix:` returns early.) -/
theorem C2_empty_configured_records_unknown :
    ∀ (cfg : VConfig) (env : LabelEnv) (st : PState) (curie p : String),
      lookupA st.label_cache curie = none →
      prefixOf curie = some p →
      p ≠ "" →
      lookupA cfg.oak_config p = some "" →
      lookupA st.adapter_cache p = none →
      (cfg.cache_labels = true → lookupA (load_cache st p) curie = none) →
      (get_ontology_label cfg env st curie).1 = none
      ∧ p ∈ (get_ontology_label cfg env st curie).2.1.unknown_prefixes := by
  intro cfg env st curie p hl hp hpne hcfg had hrows
  have hrows' : lookupA (if cfg.cache_labels then load_cache st p else []) curie
      = none := by
    cases hcl : cfg.cache_labels with
    | true => simpa using hrows hcl
    | false => simp [lookupA]
  have hconf : is_prefix_configured cfg.oak_config p = false := by
    simp [is_prefix_configured, hcfg]
  have hres : resolveAdapterString cfg.oak_config cfg.oak_adapter_string p
      = none := by
    simp [resolveAdapterString, hcfg]
  unfold get_ontology_label get_adapter
  simp only [hl, hp, hpne, hrows', had, hres, hconf, Bool.false_eq_true,
    if_false, ite_false]
  exact ⟨trivial, List.mem_cons_self p _⟩

/-- Witness for C2's amended theorem on the XX:2 lookup. -/
theorem C2_empty_configured_records_unknown_witness :
    (get_ontology_label cfgXX envNone initState "XX:2").1 = none
    ∧ "XX" ∈ (get_ontology_label cfgXX envNone initState "XX:2").2.1.unknown_prefixes :=
  C2_empty_configured_records_unknown cfgXX envNone initState "XX:2" "XX"
    rfl (by decide) (by decide) (by decide) rfl
    (by intro h; exact absurd h (by decide))

lemma gol_cache_hit (cfg : VConfig) (env : LabelEnv) (st : PState)
    (curie : String) (v : Option String)
    (h : lookupA st.label_cache curie = some v) :
    get_ontology_label cfg env st curie = (v, st, 0) := by
  unfold get_ontology_label
  rw [h]

lemma save_to_cache_label_cache (st : PState) (p curie label : String) :
    (save_to_cache st p curie label).label_cache = st.label_cache := rfl

/-- After any call to `get_ontology_label`, either the in-memory label
cache holds the returned value under the queried identifier, or the call
was the inert no-colon path and left the state untouched; and the call
made at most one backend query. -/
lemma gol_first_call (cfg : VConfig) (env : LabelEnv) (st : PState)
    (curie : String) :
    (get_ontology_label cfg env st curie).2.2 ≤ 1
    ∧ (lookupA (get_ontology_label cfg env st curie).2.1.label_cache curie
          = some (get_ontology_label cfg env st curie).1
        ∨ get_ontology_label cfg env st curie = (none, st, 0)) := by
  unfold get_ontology_label
  cases h1 : lookupA st.label_cache curie with
  | some v => simp [h1]
  | none =>
    cases h2 : prefixOf curie with
    | none => simp
    | some p =>
      by_cases hpe : p = ""
      case pos => simp [hpe]
      case neg =>
        cases h3 : lookupA (if cfg.cache_labels then load_cache st p else []) curie with
        | some label => simp [hpe, h3, lookupA_cons_self]
        | none =>
          unfold get_adapter
          cases h4 : lookupA st.adapter_cache p with
          | some cached =>
              cases cached with
              | none => simp [hpe, h3, h4, lookupA_cons_self]
              | some aStr =>
                  cases hlab : env.adapterLabel aStr curie with
                  | none => simp [hpe, h3, h4, hlab, lookupA_cons_self]
                  | some l =>
                      refine ⟨by simp [hpe, h3, h4, hlab], Or.inl ?_⟩
                      simp only [hpe, h3, h4, hlab, if_neg hpe, ite_false]
                      split
                      · rw [save_to_cache_label_cache]
                        simp [lookupA_cons_self]
                      · simp [lookupA_cons_self]
          | none =>
              cases h5 : resolveAdapterString cfg.oak_config cfg.oak_adapter_string p with
              | none => simp [hpe, h3, h4, h5, lookupA_cons_self]
              | some aStr =>
                  cases hlab : env.adapterLabel aStr curie with
                  | none => simp [hpe, h3, h4, h5, hlab, lookupA_cons_self]
                  | some l =>
                      refine ⟨by simp [hpe, h3, h4, h5, hlab], Or.inl ?_⟩
                      simp only [hpe, h3, h4, h5, hlab, if_neg hpe, ite_false]
                      split
                      · rw [save_to_cache_label_cache]
                        simp [lookupA_cons_self]
                      · simp [lookupA_cons_self]

/-- C4: calling `get_ontology_label` twice on the same identifier returns
the same result both times and performs at most one backend label query in
total (the second call is served from a cache tier, including cached
absent results). -/
theorem C4_label_lookup_idempotent_cached :
    ∀ (cfg : VConfig) (env : LabelEnv) (st : PState) (curie : String),
      (get_ontology_label cfg env st curie).1
        = (get_ontology_label cfg env
            (get_ontology_label cfg env st curie).2.1 curie).1
      ∧ (get_ontology_label cfg env st curie).2.2
          + (get_ontology_label cfg env
              (get_ontology_label cfg env st curie).2.1 curie).2.2 ≤ 1 := by
  intro cfg env st curie
  obtain ⟨hn, hc⟩ := gol_first_call cfg env st curie
  cases hc with
  | inl h =>
      rw [gol_cache_hit cfg env _ curie _ h]
      exact ⟨rfl, by simpa using hn⟩
  | inr h =>
      rw [h]
      constructor
      · show (none : Option String) = (get_ontology_label cfg env st curie).1
        rw [h]
      · show 0 + (get_ontology_label cfg env st curie).2.2 ≤ 1
        rw [h]
        simp

end TermValidator
